import Mathlib

/-!
Verification development for the retrieval subsystem of the
internal-docs RAG repository: the text cleaner (`clean_markdown_text`),
the chunker (`split_into_chunks`), the ingestion pipeline
(`ingest_raw_documents`), the index build (`build_index`) and the
retriever (`retrieve_documents`).

Text is modelled as `List Char` (one entry per Unicode code point,
matching Python string indexing/length).  The regular-expression
substitutions of the source are embedded as executable recursive
functions that reproduce the leftmost, non-overlapping semantics of
Python `re.sub` / `re.split` for the concrete patterns used by the
source.  External collaborators (the sentence-embedding model, FAISS,
NumPy) are modelled by their documented behaviour at the call sites
the source uses, with exact integer arithmetic standing in for the
floating-point scores where only ordering/shape matters.
-/

/-- Python `\s` on ASCII text (the whitespace set of `str.split`,
`str.strip` and the `\s` regex class restricted to ASCII). -/
def isPyWS (c : Char) : Bool :=
  c == ' ' || c == '\t' || c == '\n' || c == '\r' || c == '\x0b' || c == '\x0c'

/-- The character class `[ \t]` of the horizontal-whitespace
normalization in `clean_markdown_text`. -/
def isHSpace (c : Char) : Bool :=
  c == ' ' || c == '\t'

/-- `l.dropWhile isPyWS`: Python `str.lstrip()` on ASCII whitespace. -/
def lstrip (l : List Char) : List Char :=
  l.dropWhile isPyWS

/-- Python `str.rstrip()` on ASCII whitespace. -/
def rstrip (l : List Char) : List Char :=
  (l.reverse.dropWhile isPyWS).reverse

/-- Python `str.strip()` on ASCII whitespace, as used by
`clean_markdown_text` and the chunk-length filter of
`split_into_chunks`. -/
def pyStrip (l : List Char) : List Char :=
  rstrip (lstrip l)

/-- Helper for the anchor regex `\{#.*?\}` of `clean_markdown_text`:
position of the first closing brace, provided no newline intervenes
(`.` does not match a newline in Python `re`).  Returns the index of
the brace. -/
def findClose : List Char → Option Nat
  | [] => none
  | c :: rest =>
    if c = '\x7d' then some 0
    else if c = '\n' then none
    else (findClose rest).map (fun n => n + 1)

/-- `re.sub(r"\{#.*?\}", "", text)` of `clean_markdown_text`:
leftmost, non-overlapping removal of Pandoc-style header anchors.
A match starts at `{` immediately followed by `#` and extends
(non-greedily) to the nearest `}` on the same line. -/
def subAnchor : List Char → List Char
  | [] => []
  | '\x7b' :: '#' :: rest =>
    match findClose rest with
    | some n => subAnchor (rest.drop (n + 1))
    | none => '\x7b' :: subAnchor ('#' :: rest)
  | c :: rest => c :: subAnchor rest
termination_by l => l.length
decreasing_by
  · simp
    omega
  · simp
  · simp

/-- The artifact token removed case-insensitively by
`re.sub(r"headerlink", "", text, flags=re.IGNORECASE)`. -/
def hlWord : List Char :=
  ['h', 'e', 'a', 'd', 'e', 'r', 'l', 'i', 'n', 'k']

/-- `re.sub(r"headerlink", "", text, flags=re.IGNORECASE)` of
`clean_markdown_text`: leftmost, non-overlapping removal of the
10-character artifact token, ASCII case-insensitively. -/
def subHeaderlink : List Char → List Char
  | [] => []
  | c :: rest =>
    if ((c :: rest).take 10).map Char.toLower = hlWord then
      subHeaderlink ((c :: rest).drop 10)
    else c :: subHeaderlink rest
termination_by l => l.length
decreasing_by
  · simp
    omega
  · simp

/-- `re.sub(r"\n{3,}", "\n\n", text)` of `clean_markdown_text`,
via an accumulator counting the current run of newlines: every
maximal run of `k` newlines becomes `min k 2` newlines, so runs of
one or two newlines are kept and runs of 3 or more collapse to
exactly two. -/
def cnAux : Nat → List Char → List Char
  | k, [] => List.replicate (min k 2) '\n'
  | k, c :: rest =>
    if c = '\n' then cnAux (k + 1) rest
    else List.replicate (min k 2) '\n' ++ c :: cnAux 0 rest

/-- `re.sub(r"\n{3,}", "\n\n", text)` of `clean_markdown_text`. -/
def collapseNewlines (l : List Char) : List Char :=
  cnAux 0 l

/-- `re.sub(r"[ \t]+", " ", text)` of `clean_markdown_text`: every
maximal run of spaces/tabs becomes a single space. -/
def collapseSpaces : List Char → List Char
  | [] => []
  | c :: rest =>
    if isHSpace c then ' ' :: collapseSpaces (rest.dropWhile isHSpace)
    else c :: collapseSpaces rest
termination_by l => l.length
decreasing_by
  · have h2 : ∀ l : List Char, (l.dropWhile isHSpace).length ≤ l.length := by
      intro l
      induction l with
      | nil => simp [List.dropWhile]
      | cons a r ih =>
        by_cases hh : isHSpace a
        · rw [List.dropWhile_cons_of_pos hh]
          calc (List.dropWhile isHSpace r).length ≤ r.length := ih
            _ ≤ (a :: r).length := by simp
        · rw [List.dropWhile_cons_of_neg hh]
    have := h2 rest
    simp
    omega
  · simp

/-- `clean_markdown_text` from `src/ingest.py`: remove `{#...}`
anchors, remove `headerlink` artifacts case-insensitively, collapse
runs of 3+ newlines to 2, collapse horizontal whitespace runs to one
space, then strip. -/
def clean_markdown_text (text : List Char) : List Char :=
  pyStrip (collapseSpaces (collapseNewlines (subHeaderlink (subAnchor text))))

/-- Greedy tail of the section-header delimiter regex `\n##+\s` of
`split_into_chunks`: after two `#` have been seen, consume the rest of
the maximal run of `#` and then exactly one whitespace character;
returns the remainder after the match, or `none` if the run is not
followed by whitespace. -/
def matchTail : List Char → Option (List Char)
  | [] => none
  | c :: rest =>
    if c = '#' then matchTail rest
    else if isPyWS c then some rest else none

/-- The part of the delimiter regex `##+\s` that must follow a newline
for `re.split(r"\n##+\s", text)` to cut: two `#`, then `matchTail`. -/
def matchHeader : List Char → Option (List Char)
  | a :: b :: rest => if a = '#' ∧ b = '#' then matchTail rest else none
  | _ => none

/-- Prepend a character to the first part of a split-in-progress. -/
def consHead (c : Char) : List (List Char) → List (List Char)
  | [] => [[c]]
  | s :: ss => (c :: s) :: ss

/-- `re.split(r"\n##+\s", text)` of `split_into_chunks`: cut the text
at every leftmost, non-overlapping occurrence of a newline followed by
a run of two or more `#` and one whitespace character; the delimiter
itself is dropped.  `re.split` on an empty string yields `[""]`. -/
def splitSections : List Char → List (List Char)
  | [] => [[]]
  | c :: rest =>
    if c = '\n' then
      match h : matchHeader rest with
      | some rem => [] :: splitSections rem
      | none => consHead '\n' (splitSections rest)
    else consHead c (splitSections rest)
termination_by l => l.length
decreasing_by
  · have hlt : ∀ l rem2 : List Char, matchTail l = some rem2 → rem2.length < l.length := by
      intro l
      induction l with
      | nil => intro rem2 h2; simp [matchTail] at h2
      | cons a r ih =>
        intro rem2 h2
        simp only [matchTail] at h2
        by_cases ha : a = '#'
        · simp only [ha, if_true] at h2
          have := ih rem2 h2
          simp
          omega
        · by_cases hw : isPyWS a
          · simp [ha, hw] at h2
            subst h2
            simp
          · simp [ha, hw] at h2
    have hmh : rem.length < rest.length := by
      cases rest with
      | nil => simp [matchHeader] at h
      | cons a r1 =>
        cases r1 with
        | nil => simp [matchHeader] at h
        | cons b r2 =>
          simp only [matchHeader] at h
          by_cases h1 : a = '#' ∧ b = '#'
          · simp only [h1, if_true] at h
            have := hlt r2 rem h
            simp
            omega
          · simp [h1] at h
    simp
    omega
  · simp
  · simp

/-- One step of Python `text.split()`: accumulate the current word
(in reverse) while scanning; whitespace runs close the word. -/
def pySplitAux (cur : List Char) : List Char → List (List Char)
  | [] => if cur.isEmpty then [] else [cur.reverse]
  | c :: rest =>
    if isPyWS c then
      if cur.isEmpty then pySplitAux [] rest
      else cur.reverse :: pySplitAux [] rest
    else pySplitAux (c :: cur) rest

/-- Python `str.split()` with no argument, as used by
`split_into_chunks` (`words = section.split()`): split on runs of
whitespace, returning the (nonempty) words. -/
def pySplit (l : List Char) : List (List Char) :=
  pySplitAux [] l

/-- The word windows of the Python loop
`for start in range(0, len(words), chunk_size): words[start:start+chunk_size]`
for `chunk_size ≥ 1` (the source always calls it with
`CHUNK_SIZE = 500`; `range` with step 0 is a Python error). -/
def windows (k : Nat) : List α → List (List α)
  | [] => []
  | c :: rest => (c :: rest.take (k - 1)) :: windows k (rest.drop (k - 1))
termination_by l => l.length
decreasing_by
  · simp
    omega

/-- Python `" ".join(ws)`. -/
def joinWords : List (List Char) → List Char
  | [] => []
  | [w] => w
  | w :: ws => w ++ ' ' :: joinWords ws

/-- The candidate chunks the inner loop of `split_into_chunks` forms
from one section, before the minimum-length filter is applied:
each window of at most `k` words of `section.split()`, joined by
single spaces. -/
def sectionCandidates (s : List Char) (k : Nat) : List (List Char) :=
  (windows k (pySplit s)).map joinWords

/-- `split_into_chunks` from `src/ingest.py`: split on `\n##+\s`
section boundaries, window each section's words into groups of at
most `chunk_size`, join each group with single spaces, and keep only
chunks whose stripped length exceeds 50 characters. -/
def split_into_chunks (text : List Char) (chunk_size : Nat) : List (List Char) :=
  ((splitSections text).map (fun s =>
    (sectionCandidates s chunk_size).filter
      (fun c => 50 < (pyStrip c).length))).flatten

/-- A `{text, source}` record of the corpus, as produced by
`ingest_raw_documents` and consumed by the index build and the
retriever. -/
structure Doc where
  text : List Char
  source : List Char
  deriving DecidableEq, Repr

/-- A raw file visited by the `os.walk` loop of
`ingest_raw_documents`: its path relative to the raw-data root and
its contents.  The filesystem walk is modelled by the given list
order. -/
structure RawFile where
  name : List Char
  content : List Char
  deriving DecidableEq, Repr

/-- Python `filename.endswith(".md")`. -/
def endsWithMd (name : List Char) : Bool :=
  name.reverse.take 3 == ['d', 'm', '.']

/-- `CHUNK_SIZE` from `src/config.py`. -/
def CHUNK_SIZE : Nat := 500

/-- `ingest_raw_documents` from `src/ingest.py`: for every `.md` file
under the raw-data root (walked in list order), read, clean, chunk,
and attach the file's relative path as `source` to every chunk. -/
def ingest_raw_documents (files : List RawFile) : List Doc :=
  (files.map (fun f =>
    if endsWithMd f.name then
      (split_into_chunks (clean_markdown_text f.content) CHUNK_SIZE).map
        (fun c => { text := c, source := f.name })
    else [])).flatten

/-- The error raised by `build_index` when ingestion finds zero
documents (`RuntimeError("No documentation found. ...")`, the
spec's ConfigurationError). -/
inductive BuildError
  | noDocumentsFound
  deriving DecidableEq, Repr

/-- One artifact written by `build_index`, in write order:
`np.save(EMBEDDINGS_PATH, embeddings)`, `pickle.dump(documents, f)`
into `DOCS_PATH`, and `faiss.write_index` of the `IndexFlatIP` holding
exactly the embedding rows. -/
inductive ArtifactWrite
  | embeddingsFile (m : List (List Int))
  | docsFile (d : List Doc)
  | indexFile (m : List (List Int))
  deriving DecidableEq, Repr

/-- `build_index` from `src/build_index.py`.  The sentence-embedding
collaborator is a parameter `rowEmbed`; per its contract (spec §6:
`encode` returns one row per input string) the batch call
`embedder.encode(texts, ...)` is `texts.map rowEmbed`.  On success the
three artifacts are written in source order; the zero-document check
raises before any artifact is written, which the `Except.error` result
models (no write list is produced). -/
def build_index (files : List RawFile) (rowEmbed : List Char → List Int) :
    Except BuildError (List ArtifactWrite) :=
  let documents := ingest_raw_documents files
  if documents.isEmpty then Except.error BuildError.noDocumentsFound
  else
    let texts := documents.map (fun d => d.text)
    let embeddings := texts.map rowEmbed
    Except.ok [ArtifactWrite.embeddingsFile embeddings,
      ArtifactWrite.docsFile documents,
      ArtifactWrite.indexFile embeddings]

/-- Integer inner product of two vectors (exact stand-in for the
floating-point inner product of `IndexFlatIP`; only score ordering
and result shape matter for the claims below). -/
def dot (v w : List Int) : Int :=
  (List.zipWith (fun a b => a * b) v w).sum

/-- Insert a `(score, row)` pair into a list sorted by descending
score (ties by ascending row), modelling the exact top-`k` scan of
`faiss.IndexFlatIP.search`. -/
def insertRanked (x : Int × Nat) : List (Int × Nat) → List (Int × Nat)
  | [] => [x]
  | y :: rest =>
    if y.1 < x.1 ∨ (x.1 = y.1 ∧ x.2 < y.2) then x :: y :: rest
    else y :: insertRanked x rest

/-- All `(score, row)` pairs sorted by descending score. -/
def rankAll (l : List (Int × Nat)) : List (Int × Nat) :=
  l.foldr insertRanked []

/-- The label row `indices[q]` returned by
`faiss.IndexFlatIP.search(queries, k)` for one query `q` against the
stored matrix: the indices of the `min k n` best rows by descending
inner product, padded to length `k` with label `-1` when `k` exceeds
the number of stored vectors (documented FAISS behaviour: missing
results are reported as label `-1`). -/
def faissSearch (matrix : List (List Int)) (q : List Int) (k : Nat) : List Int :=
  let ranked := rankAll
    (List.zip (matrix.map (fun v => dot v q)) (List.range matrix.length))
  (ranked.map (fun p => (p.2 : Int))).take k
    ++ List.replicate (k - matrix.length) (-1)

/-- Python `documents[i]` on a list: non-negative indices from the
front, negative indices from the back, `IndexError` (`none`)
otherwise. -/
def pyGet (l : List α) (i : Int) : Option α :=
  if i < 0 then
    if 0 ≤ (l.length : Int) + i then l.get? ((l.length : Int) + i).toNat
    else none
  else l.get? i.toNat

/-- `retrieve_documents` from `src/retriever.py`, given the loaded
index matrix and corpus.  `queries` is the 2-D query array (a 1-D
query is reshaped to one row by the source before searching).  The
source searches the whole batch, then iterates over `indices[0]` only
and looks each label up in `documents`; a failing lookup (Python
`IndexError`) is `none`. -/
def retrieve_documents (matrix : List (List Int)) (documents : List Doc)
    (queries : List (List Int)) (top_k : Nat) : Option (List Doc) :=
  let allIndices := queries.map (fun q => faissSearch matrix q top_k)
  match allIndices with
  | [] => none
  | row0 :: _ => row0.mapM (fun i => pyGet documents i)

/-- No three consecutive newlines occur (no match of `\n{3,}` is
left). -/
def noTripleNl : List Char → Bool
  | a :: b :: c :: rest => !(a == '\n' && b == '\n' && c == '\n') && noTripleNl (b :: c :: rest)
  | _ => true

/-- No two adjacent horizontal-whitespace characters occur (no
multi-character match of `[ \t]+` is left). -/
def noPair : List Char → Bool
  | a :: b :: rest => !(isHSpace a && isHSpace b) && noPair (b :: rest)
  | _ => true

/-- No tab character occurs. -/
def noTab (l : List Char) : Bool :=
  l.all (fun c => c != '\t')

/-- No `\n##+\s` delimiter match starts inside the scanned prefix,
given that `suffix` follows it: at every newline of the prefix, the
remainder of the prefix followed by `suffix` does not begin a header
match.  This is exactly "the scanned prefix lies strictly before the
leftmost delimiter occurrence" (matches straddling the junction with
`suffix` count). -/
def noBoundaryBefore (suffix : List Char) : List Char → Bool
  | [] => true
  | c :: rest =>
    !(c == '\n' && (matchHeader (rest ++ suffix)).isSome)
      && noBoundaryBefore suffix rest

/-- A one-chunk corpus used to exhibit the retriever's padding
behaviour. -/
def cexDoc : Doc := { text := ['a'], source := ['s'] }

/-- Input on which artifact removal uncovers a fresh artifact:
removing the inner `headerlink` occurrence leaves the outer one. -/
def exC2 : List Char := ("headerheaderlinklink").toList

/-- A single 12-word section whose last window (with `max_words = 11`)
is a 1-character chunk, discarded by the 50-character filter. -/
def exC3 : List Char :=
  ("alpha beta gamma delta epsilon zeta eta theta iota kappa lambda q").toList

/-- A text whose very first line is a `##` header. -/
def exC5 : List Char := ("## Intro\nbody").toList

/-- Text before an interior section boundary; it contains a
newline-then-`#` pair (`\n#b`) that is not a delimiter match, so the
boundary after it is still the leftmost one. -/
def exC5a : List Char := ("a\n#b").toList

/-- Text after an interior section boundary. -/
def exC5b : List Char := ("c").toList

/-- A 63-character, 11-word, artifact-free, already-normalized text:
cleaning keeps it unchanged and chunking yields it as one chunk. -/
def exWit : List Char :=
  ("alpha beta gamma delta epsilon zeta eta theta iota kappa lambda").toList

/-- A one-file raw-documentation directory. -/
def exFiles : List RawFile :=
  [{ name := ['a', '.', 'm', 'd'], content := exWit }]

/-- A concrete stand-in embedding collaborator: one row per text. -/
def exEmbed (t : List Char) : List Int := [(t.length : Int)]

theorem windows_flatten (k : Nat) (l : List α) :
    (windows k l).flatten = l := by
  induction l using windows.induct k with
  | case1 => simp [windows]
  | case2 c rest ih => simp [windows, ih]

theorem pySplitAux_append (w : List Char) (cur rest : List Char)
    (hw : ∀ c ∈ w, isPyWS c = false) :
    pySplitAux cur (w ++ rest) = pySplitAux (w.reverse ++ cur) rest := by
  induction w generalizing cur with
  | nil => simp
  | cons c w ih =>
    have hc : isPyWS c = false := hw c (by simp)
    simp only [List.cons_append, pySplitAux, hc, Bool.false_eq_true, if_false,
      List.append_eq]
    rw [ih (c :: cur) (fun d hd => hw d (by simp [hd]))]
    simp

theorem pySplit_joinWords (ws : List (List Char))
    (hne : ∀ w ∈ ws, w ≠ [])
    (hws : ∀ w ∈ ws, ∀ c ∈ w, isPyWS c = false) :
    pySplit (joinWords ws) = ws := by
  induction ws with
  | nil => simp [pySplit, joinWords, pySplitAux]
  | cons w ws ih =>
    cases ws with
    | nil =>
      have hw := hne w (by simp)
      simp only [joinWords, pySplit]
      rw [show w = w ++ [] by simp, pySplitAux_append w [] [] (hws w (by simp))]
      simp [pySplitAux, hw]
    | cons v vs =>
      simp only [joinWords, pySplit]
      rw [pySplitAux_append w [] (' ' :: joinWords (v :: vs)) (hws w (by simp))]
      have hw := hne w (by simp)
      have hrev : (w.reverse).isEmpty = false := by
        simp [List.isEmpty_iff]
        exact hw
      simp only [pySplitAux, List.append_nil, hrev,
        show isPyWS ' ' = true by decide, if_true, Bool.false_eq_true, if_false,
        List.reverse_reverse]
      exact congrArg (w :: ·)
        (ih (fun u hu => hne u (by simp [hu])) (fun u hu => hws u (by simp [hu])))

theorem pySplitAux_words (l : List Char) (cur : List Char)
    (hcur : ∀ c ∈ cur, isPyWS c = false) :
    ∀ w ∈ pySplitAux cur l, w ≠ [] ∧ ∀ c ∈ w, isPyWS c = false := by
  induction l generalizing cur with
  | nil =>
    intro w hw
    simp only [pySplitAux] at hw
    by_cases hc : cur.isEmpty
    · simp [hc] at hw
    · simp only [hc, Bool.false_eq_true, if_false, List.mem_singleton] at hw
      subst hw
      constructor
      · simp [List.isEmpty_iff] at hc
        simp [hc]
      · intro c hc2
        exact hcur c (by simpa using hc2)
  | cons a rest ih =>
    intro w hw
    simp only [pySplitAux] at hw
    by_cases ha : isPyWS a
    · simp only [ha, if_true] at hw
      by_cases hc : cur.isEmpty
      · simp only [hc, if_true] at hw
        exact ih [] (by simp) w hw
      · simp only [hc, Bool.false_eq_true, if_false, List.mem_cons] at hw
        rcases hw with rfl | hw
        · constructor
          · simp [List.isEmpty_iff] at hc
            simp [hc]
          · intro c hc2
            exact hcur c (by simpa using hc2)
        · exact ih [] (by simp) w hw
    · simp only [ha, Bool.false_eq_true, if_false] at hw
      refine ih (a :: cur) ?_ w hw
      intro c hc
      rcases List.mem_cons.mp hc with rfl | hc
      · simpa using ha
      · exact hcur c hc

theorem pySplit_words (l : List Char) :
    ∀ w ∈ pySplit l, w ≠ [] ∧ ∀ c ∈ w, isPyWS c = false :=
  pySplitAux_words l [] (by simp)

theorem windows_mem_subset {k : Nat} {l : List α} {w : List α}
    (hw : w ∈ windows k l) : ∀ x ∈ w, x ∈ l := by
  intro x hx
  have : x ∈ (windows k l).flatten := List.mem_flatten.mpr ⟨w, hw, hx⟩
  rwa [windows_flatten] at this

theorem windows_mem_length {k : Nat} (hk : 1 ≤ k) {l : List α} {w : List α}
    (hw : w ∈ windows k l) : w.length ≤ k := by
  induction l using windows.induct k with
  | case1 => simp [windows] at hw
  | case2 c rest ih =>
    simp only [windows, List.mem_cons] at hw
    rcases hw with rfl | hw
    · have := List.length_take_le (k - 1) rest
      simp
      omega
    · exact ih hw

theorem chunk_mem_structure {t c : List Char} {k : Nat}
    (hc : c ∈ split_into_chunks t k) :
    ∃ s ∈ splitSections t, ∃ w ∈ windows k (pySplit s),
      c = joinWords w ∧ 50 < (pyStrip c).length := by
  simp only [split_into_chunks, List.mem_flatten, List.mem_map] at hc
  obtain ⟨fl, ⟨s, hs, rfl⟩, hcfl⟩ := hc
  rw [List.mem_filter] at hcfl
  obtain ⟨hmem, hlen⟩ := hcfl
  simp only [sectionCandidates, List.mem_map] at hmem
  obtain ⟨w, hw, rfl⟩ := hmem
  exact ⟨s, hs, w, hw, rfl, by simpa using hlen⟩

theorem matchTail_hashes {w : Char} (hw : isPyWS w = true) (j : Nat)
    (b : List Char) :
    matchTail (List.replicate j '#' ++ w :: b) = some b := by
  induction j with
  | zero =>
    have hwh : w ≠ '#' := by
      intro hwh
      rw [hwh] at hw
      simp [isPyWS] at hw
    simp [matchTail, hwh, hw]
  | succ j ih =>
    rw [List.replicate_succ, List.cons_append]
    simpa [matchTail] using ih

theorem matchHeader_delim {m : Nat} {w : Char} (hm : 2 ≤ m)
    (hw : isPyWS w = true) (b : List Char) :
    matchHeader (List.replicate m '#' ++ w :: b) = some b := by
  obtain ⟨j, rfl⟩ : ∃ j, m = j + 2 := ⟨m - 2, by omega⟩
  rw [show j + 2 = (j + 1) + 1 from rfl, List.replicate_succ, List.replicate_succ,
    List.cons_append, List.cons_append]
  simpa [matchHeader] using matchTail_hashes hw j b

theorem nt_short {l : List Char} (h : l.length ≤ 2) : noTripleNl l = true := by
  match l with
  | [] => simp [noTripleNl]
  | [a] => simp [noTripleNl]
  | [a, b] => simp [noTripleNl]
  | a :: b :: c :: rest => simp at h

theorem nt_tail {x : Char} {l : List Char} (h : noTripleNl (x :: l) = true) :
    noTripleNl l = true := by
  match l with
  | [] => simp [noTripleNl]
  | [a] => simp [noTripleNl]
  | a :: b :: rest =>
    simp only [noTripleNl, Bool.and_eq_true] at h
    exact h.2

theorem nt_cons {x : Char} {l : List Char} (h : noTripleNl l = true)
    (hx : x ≠ '\n' ∨ l.take 2 ≠ ['\n', '\n']) : noTripleNl (x :: l) = true := by
  match l with
  | [] => simp [noTripleNl]
  | [a] => simp [noTripleNl]
  | a :: b :: rest =>
    simp only [noTripleNl, Bool.and_eq_true]
    refine ⟨?_, h⟩
    rcases hx with hx | hx
    · simp [hx]
    · simp only [List.take, ne_eq, List.cons.injEq, and_true, not_and] at hx
      by_cases ha : a = '\n'
      · have hb : b ≠ '\n' := fun hb => hx ha hb
        simp [hb]
      · simp [ha]

theorem nt_suffix {a b : List Char} (h : noTripleNl (a ++ b) = true) :
    noTripleNl b = true := by
  induction a with
  | nil => simpa using h
  | cons x a ih => exact ih (nt_tail (by simpa using h))

theorem nt_drop {l : List Char} (n : Nat) (h : noTripleNl l = true) :
    noTripleNl (l.drop n) = true := by
  have h2 : l = l.take n ++ l.drop n := (List.take_append_drop n l).symm
  rw [h2] at h
  exact nt_suffix h

theorem nt_take {l : List Char} (n : Nat) (h : noTripleNl l = true) :
    noTripleNl (l.take n) = true := by
  induction l using noTripleNl.induct generalizing n with
  | case2 l hshape =>
    have hlen : l.length ≤ 2 := by
      match l, hshape with
      | [], _ => simp
      | [a], _ => simp
      | [a, b], _ => simp
      | a :: b :: c :: rest, hshape => exact absurd rfl (hshape a b c rest)
    exact nt_short (by rw [List.length_take]; omega)
  | case1 a b c rest ih =>
    simp only [noTripleNl, Bool.and_eq_true] at h
    match n with
    | 0 => simp [noTripleNl]
    | 1 => exact nt_short (by simp [List.take])
    | 2 => exact nt_short (by rw [List.length_take]; omega)
    | n + 3 =>
      simp only [List.take_succ_cons]
      have h3 : List.take (n + 2) (b :: c :: rest) = b :: c :: List.take n rest := by
        simp [List.take_succ_cons]
      have := ih (n + 2) h.2
      rw [h3] at this
      simp only [noTripleNl, Bool.and_eq_true]
      exact ⟨h.1, this⟩

theorem nt_rep {m : Nat} {c : Char} {l : List Char} (hm : m ≤ 2)
    (hc : c ≠ '\n') (h : noTripleNl l = true) :
    noTripleNl (List.replicate m '\n' ++ c :: l) = true := by
  have h0 : noTripleNl (c :: l) = true := nt_cons h (Or.inl hc)
  match m with
  | 0 => simpa using h0
  | 1 =>
    simp only [List.replicate, List.cons_append, List.nil_append]
    refine nt_cons h0 (Or.inr ?_)
    cases l <;> simp [List.take, hc]
  | 2 =>
    simp only [List.replicate, List.cons_append, List.nil_append]
    refine nt_cons (nt_cons h0 (Or.inr ?_)) (Or.inr ?_)
    · cases l <;> simp [List.take, hc]
    · simp [List.take, hc]

theorem cn_noTriple (l : List Char) (k : Nat) :
    noTripleNl (cnAux k l) = true := by
  induction l generalizing k with
  | nil =>
    refine nt_short ?_
    simp only [cnAux, List.length_replicate]
    omega
  | cons c rest ih =>
    simp only [cnAux]
    by_cases hc : c = '\n'
    · simp only [hc, if_true]
      exact ih (k + 1)
    · simp only [hc, if_false]
      exact nt_rep (by omega) hc (ih 0)

theorem nt_rep_le {k : Nat} {l : List Char}
    (h : noTripleNl (List.replicate k '\n' ++ l) = true) : k ≤ 2 := by
  by_contra hk
  match k, hk with
  | n + 3, _ =>
    simp only [List.replicate, List.cons_append, noTripleNl] at h
    simp at h

theorem cn_id (l : List Char) (k : Nat)
    (h : noTripleNl (List.replicate k '\n' ++ l) = true) :
    cnAux k l = List.replicate k '\n' ++ l := by
  induction l generalizing k with
  | nil =>
    have hk : k ≤ 2 := nt_rep_le h
    simp only [cnAux, List.append_nil]
    congr 1
    omega
  | cons c rest ih =>
    simp only [cnAux]
    by_cases hc : c = '\n'
    · subst hc
      have hshuffle : List.replicate (k + 1) '\n' ++ rest
          = List.replicate k '\n' ++ '\n' :: rest := by
        rw [List.replicate_succ']
        simp
      simp only [if_true]
      rw [ih (k + 1) (by rw [hshuffle]; exact h), hshuffle]
    · have hk : k ≤ 2 := nt_rep_le h
      have hrest : noTripleNl rest = true := by
        have hsplit : List.replicate k '\n' ++ c :: rest
            = (List.replicate k '\n' ++ [c]) ++ rest := by simp
        rw [hsplit] at h
        exact nt_suffix h
      simp only [hc, if_false]
      rw [ih 0 (by simpa using hrest)]
      have : min k 2 = k := by omega
      simp [this]

theorem collapseNewlines_noTriple (l : List Char) :
    noTripleNl (collapseNewlines l) = true :=
  cn_noTriple l 0

theorem collapseNewlines_id {l : List Char} (h : noTripleNl l = true) :
    collapseNewlines l = l :=
  cn_id l 0 (by simpa using h)

theorem dw_head {p : Char → Bool} {l : List Char} {c : Char} {t : List Char}
    (h : l.dropWhile p = c :: t) : p c = false := by
  induction l with
  | nil => simp [List.dropWhile] at h
  | cons a rest ih =>
    by_cases ha : p a
    · rw [List.dropWhile_cons_of_pos ha] at h
      exact ih h
    · rw [List.dropWhile_cons_of_neg ha] at h
      cases h
      simpa using ha

theorem dw_drop (p : Char → Bool) (l : List Char) :
    ∃ n, l.dropWhile p = l.drop n := by
  induction l with
  | nil => exact ⟨0, rfl⟩
  | cons a rest ih =>
    by_cases ha : p a
    · obtain ⟨n, hn⟩ := ih
      exact ⟨n + 1, by rw [List.dropWhile_cons_of_pos ha, List.drop_succ_cons, hn]⟩
    · exact ⟨0, by rw [List.dropWhile_cons_of_neg ha, List.drop_zero]⟩

theorem dropWhile_idem (p : Char → Bool) (l : List Char) :
    (l.dropWhile p).dropWhile p = l.dropWhile p := by
  cases h : l.dropWhile p with
  | nil => rfl
  | cons c t => rw [List.dropWhile_cons_of_neg (by simp [dw_head h])]

theorem nt_nl_take2 {l : List Char} (h : noTripleNl ('\n' :: l) = true) :
    l.take 2 ≠ ['\n', '\n'] := by
  match l with
  | [] => simp
  | [a] => simp [List.take]
  | a :: b :: rest =>
    intro htake
    simp only [List.take, List.cons.injEq, and_true] at htake
    obtain ⟨rfl, rfl, -⟩ := htake
    simp [noTripleNl] at h

theorem cs_head_nl {l : List Char} {t : List Char}
    (h : collapseSpaces l = '\n' :: t) : ∃ u, l = '\n' :: u := by
  match l with
  | [] => simp [collapseSpaces] at h
  | c :: rest =>
    by_cases hc : isHSpace c
    · rw [show collapseSpaces (c :: rest)
          = ' ' :: collapseSpaces (rest.dropWhile isHSpace) from by
            simp [collapseSpaces, hc]] at h
      cases h
    · rw [show collapseSpaces (c :: rest) = c :: collapseSpaces rest from by
          simp [collapseSpaces, hc]] at h
      injection h with h1 h2
      exact ⟨rest, by rw [h1]⟩

theorem cs_take2_nl {l : List Char}
    (h : (collapseSpaces l).take 2 = ['\n', '\n']) : l.take 2 = ['\n', '\n'] := by
  match hcs : collapseSpaces l with
  | [] => rw [hcs] at h; simp [List.take] at h
  | [a] => rw [hcs] at h; simp [List.take] at h
  | a :: b :: t =>
    rw [hcs] at h
    simp only [List.take, List.cons.injEq, and_true] at h
    obtain ⟨rfl, rfl, -⟩ := h
    obtain ⟨u, rfl⟩ := cs_head_nl hcs
    have hu : collapseSpaces ('\n' :: u) = '\n' :: collapseSpaces u := by
      simp [collapseSpaces, isHSpace]
    rw [hu] at hcs
    injection hcs with h1 h2
    obtain ⟨v, rfl⟩ := cs_head_nl h2
    simp [List.take]

theorem cs_noTriple {l : List Char} (h : noTripleNl l = true) :
    noTripleNl (collapseSpaces l) = true := by
  induction l using collapseSpaces.induct with
  | case1 => rw [show collapseSpaces [] = [] from by simp [collapseSpaces]]; exact h
  | case2 c rest hc ih =>
    rw [show collapseSpaces (c :: rest) = ' ' :: collapseSpaces (rest.dropWhile isHSpace)
        from by simp [collapseSpaces, hc]]
    have hrest : noTripleNl (rest.dropWhile isHSpace) = true := by
      obtain ⟨n, hn⟩ := dw_drop isHSpace rest
      rw [hn]
      exact nt_drop n (nt_tail h)
    exact nt_cons (ih hrest) (Or.inl (by decide))
  | case3 c rest hc ih =>
    rw [show collapseSpaces (c :: rest) = c :: collapseSpaces rest
        from by simp [collapseSpaces, hc]]
    refine nt_cons (ih (nt_tail h)) ?_
    by_cases hcn : c = '\n'
    · subst hcn
      right
      intro htake
      exact nt_nl_take2 h (cs_take2_nl htake)
    · exact Or.inl hcn

theorem np_tail {x : Char} {l : List Char} (h : noPair (x :: l) = true) :
    noPair l = true := by
  match l with
  | [] => simp [noPair]
  | a :: rest =>
    simp only [noPair, Bool.and_eq_true] at h
    exact h.2

theorem np_cons {x : Char} {l : List Char} (h : noPair l = true)
    (hx : isHSpace x = false ∨ ∀ c t, l = c :: t → isHSpace c = false) :
    noPair (x :: l) = true := by
  match l with
  | [] => simp [noPair]
  | a :: rest =>
    simp only [noPair, Bool.and_eq_true]
    refine ⟨?_, h⟩
    rcases hx with hx | hx
    · simp [hx]
    · simp [hx a rest rfl]

theorem np_suffix {a b : List Char} (h : noPair (a ++ b) = true) :
    noPair b = true := by
  induction a with
  | nil => simpa using h
  | cons x a ih => exact ih (np_tail (by simpa using h))

theorem np_drop {l : List Char} (n : Nat) (h : noPair l = true) :
    noPair (l.drop n) = true := by
  have h2 : l = l.take n ++ l.drop n := (List.take_append_drop n l).symm
  rw [h2] at h
  exact np_suffix h

theorem np_take {l : List Char} (n : Nat) (h : noPair l = true) :
    noPair (l.take n) = true := by
  induction l generalizing n with
  | nil => simp [noPair]
  | cons x l ih =>
    match n with
    | 0 => simp [noPair]
    | n + 1 =>
      rw [List.take_succ_cons]
      refine np_cons (ih n (np_tail h)) ?_
      by_cases hx : isHSpace x
      · right
        intro c t hct
        match l, n, hct with
        | c2 :: l2, n + 1, hct =>
          rw [List.take_succ_cons] at hct
          injection hct with h1 h2
          subst h1
          simp only [noPair, Bool.and_eq_true] at h
          have := h.1
          rw [hx] at this
          simpa using this
        | l, 0, hct => simp [List.take] at hct
      · exact Or.inl (by simpa using hx)

theorem noTab_drop {l : List Char} (n : Nat) (h : noTab l = true) :
    noTab (l.drop n) = true := by
  simp only [noTab, List.all_eq_true] at h ⊢
  intro c hc
  exact h c (List.mem_of_mem_drop hc)

theorem noTab_take {l : List Char} (n : Nat) (h : noTab l = true) :
    noTab (l.take n) = true := by
  simp only [noTab, List.all_eq_true] at h ⊢
  intro c hc
  exact h c (List.mem_of_mem_take hc)

theorem cs_head_keep {l : List Char}
    (hl : ∀ c t, l = c :: t → isHSpace c = false) :
    (collapseSpaces l).head? = l.head? := by
  match l with
  | [] => simp [collapseSpaces]
  | c :: rest =>
    have hc : isHSpace c = false := hl c rest rfl
    rw [show collapseSpaces (c :: rest) = c :: collapseSpaces rest
        from by simp [collapseSpaces, hc]]
    simp

theorem cs_noPair (l : List Char) : noPair (collapseSpaces l) = true := by
  induction l using collapseSpaces.induct with
  | case1 => rw [show collapseSpaces [] = [] from by simp [collapseSpaces]]; simp [noPair]
  | case2 c rest hc ih =>
    rw [show collapseSpaces (c :: rest) = ' ' :: collapseSpaces (rest.dropWhile isHSpace)
        from by simp [collapseSpaces, hc]]
    refine np_cons ih (Or.inr ?_)
    intro d t hdt
    have hhead : ∀ e u, rest.dropWhile isHSpace = e :: u → isHSpace e = false :=
      fun e u he => dw_head he
    have hh := cs_head_keep hhead
    rw [hdt] at hh
    cases hrest : rest.dropWhile isHSpace with
    | nil => rw [hrest] at hh; simp at hh
    | cons e u =>
      rw [hrest] at hh
      simp only [List.head?_cons, Option.some.injEq] at hh
      rw [hh]
      exact dw_head hrest
  | case3 c rest hc ih =>
    rw [show collapseSpaces (c :: rest) = c :: collapseSpaces rest
        from by simp [collapseSpaces, hc]]
    exact np_cons ih (Or.inl (by simpa using hc))

theorem cs_noTab (l : List Char) : noTab (collapseSpaces l) = true := by
  induction l using collapseSpaces.induct with
  | case1 => rw [show collapseSpaces [] = [] from by simp [collapseSpaces]]; simp [noTab]
  | case2 c rest hc ih =>
    rw [show collapseSpaces (c :: rest) = ' ' :: collapseSpaces (rest.dropWhile isHSpace)
        from by simp [collapseSpaces, hc]]
    simp only [noTab, List.all_cons, Bool.and_eq_true] at ih ⊢
    exact ⟨by decide, ih⟩
  | case3 c rest hc ih =>
    rw [show collapseSpaces (c :: rest) = c :: collapseSpaces rest
        from by simp [collapseSpaces, hc]]
    simp only [noTab, List.all_cons, Bool.and_eq_true] at ih ⊢
    refine ⟨?_, ih⟩
    simp only [isHSpace, Bool.or_eq_true, beq_iff_eq] at hc
    push_neg at hc
    simp [bne_iff_ne]
    exact hc.2

theorem cs_id {l : List Char} (ht : noTab l = true) (hp : noPair l = true) :
    collapseSpaces l = l := by
  induction l with
  | nil => simp [collapseSpaces]
  | cons c rest ih =>
    by_cases hc : isHSpace c
    · have hcsp : c = ' ' := by
        simp only [isHSpace, Bool.or_eq_true, beq_iff_eq] at hc
        rcases hc with hc | hc
        · exact hc
        · subst hc
          simp only [noTab, List.all_cons, Bool.and_eq_true] at ht
          simpa using ht.1
      have hrest : rest.dropWhile isHSpace = rest := by
        match rest with
        | [] => simp [List.dropWhile]
        | d :: t =>
          refine List.dropWhile_cons_of_neg ?_
          simp only [noPair, Bool.and_eq_true] at hp
          have := hp.1
          rw [hc] at this
          simpa using this
      rw [show collapseSpaces (c :: rest) = ' ' :: collapseSpaces (rest.dropWhile isHSpace)
          from by simp [collapseSpaces, hc], hrest, hcsp,
        ih (by simp only [noTab, List.all_cons, Bool.and_eq_true] at ht; exact ht.2)
          (np_tail hp)]
    · rw [show collapseSpaces (c :: rest) = c :: collapseSpaces rest
          from by simp [collapseSpaces, hc],
        ih (by simp only [noTab, List.all_cons, Bool.and_eq_true] at ht; exact ht.2)
          (np_tail hp)]

theorem rstrip_take (l : List Char) : ∃ n, rstrip l = l.take n := by
  obtain ⟨m, hm⟩ := dw_drop isPyWS l.reverse
  refine ⟨l.length - m, ?_⟩
  rw [rstrip, hm, List.drop_reverse, List.reverse_reverse]

theorem lstrip_drop (l : List Char) : ∃ n, lstrip l = l.drop n :=
  dw_drop isPyWS l

theorem nt_pyStrip {l : List Char} (h : noTripleNl l = true) :
    noTripleNl (pyStrip l) = true := by
  obtain ⟨n, hn⟩ := lstrip_drop l
  obtain ⟨m, hm⟩ := rstrip_take (lstrip l)
  rw [pyStrip, hm, hn]
  exact nt_take m (nt_drop n h)

theorem np_pyStrip {l : List Char} (h : noPair l = true) :
    noPair (pyStrip l) = true := by
  obtain ⟨n, hn⟩ := lstrip_drop l
  obtain ⟨m, hm⟩ := rstrip_take (lstrip l)
  rw [pyStrip, hm, hn]
  exact np_take m (np_drop n h)

theorem noTab_pyStrip {l : List Char} (h : noTab l = true) :
    noTab (pyStrip l) = true := by
  obtain ⟨n, hn⟩ := lstrip_drop l
  obtain ⟨m, hm⟩ := rstrip_take (lstrip l)
  rw [pyStrip, hm, hn]
  exact noTab_take m (noTab_drop n h)

theorem lstrip_idem (l : List Char) : lstrip (lstrip l) = lstrip l :=
  dropWhile_idem isPyWS l

theorem rstrip_idem (l : List Char) : rstrip (rstrip l) = rstrip l := by
  simp only [rstrip, List.reverse_reverse]
  rw [dropWhile_idem]

theorem lstrip_rstrip (l : List Char) :
    lstrip (rstrip (lstrip l)) = rstrip (lstrip l) := by
  cases hx : rstrip (lstrip l) with
  | nil => simp [lstrip, List.dropWhile]
  | cons c t =>
    obtain ⟨m, hm⟩ := rstrip_take (lstrip l)
    rw [hm] at hx
    have hcl : ∃ u, lstrip l = c :: u := by
      cases hl : lstrip l with
      | nil => rw [hl] at hx; simp at hx
      | cons d u =>
        rw [hl] at hx
        match m, hx with
        | m + 1, hx =>
          rw [List.take_succ_cons] at hx
          injection hx with h1 h2
          exact ⟨u, by rw [h1]⟩
    obtain ⟨u, hu⟩ := hcl
    have hc : isPyWS c = false := dw_head hu
    rw [lstrip, List.dropWhile_cons_of_neg (by simp [hc])]

theorem pyStrip_idem (l : List Char) : pyStrip (pyStrip l) = pyStrip l := by
  simp only [pyStrip]
  rw [lstrip_rstrip, rstrip_idem]

theorem clean_noTriple (t : List Char) :
    noTripleNl (clean_markdown_text t) = true := by
  simp only [clean_markdown_text]
  exact nt_pyStrip (cs_noTriple (collapseNewlines_noTriple _))

theorem clean_noPair (t : List Char) : noPair (clean_markdown_text t) = true := by
  simp only [clean_markdown_text]
  exact np_pyStrip (cs_noPair _)

theorem clean_noTab (t : List Char) : noTab (clean_markdown_text t) = true := by
  simp only [clean_markdown_text]
  exact noTab_pyStrip (cs_noTab _)

theorem clean_strip_fix (t : List Char) :
    pyStrip (clean_markdown_text t) = clean_markdown_text t := by
  simp only [clean_markdown_text]
  exact pyStrip_idem _

/-- C1: the claim "retrieval with top_k exceeding the corpus size
returns exactly all available chunks, with no padding entries and no
repetition caused by padding" fails on the code.  Against a corpus of
one chunk with `top_k = 2`, FAISS pads `indices[0]` with the label
`-1`, which Python list indexing resolves to `documents[-1]`, the
last corpus entry: the call returns two entries, the single chunk
repeated, instead of `min(top_k, corpus_size) = 1` entries with no
repetition. -/
theorem retrieve_padding_duplicates_last :
    retrieve_documents [[1]] [cexDoc] [[1]] 2 = some [cexDoc, cexDoc]
      ∧ [cexDoc].length = 1 ∧ ¬ (2 = min 2 [cexDoc].length) := by
  decide

/-- C4: the claim "retrieval against an index built from an empty
corpus returns an empty sequence rather than failing" fails on the
code.  With zero stored vectors FAISS returns the padding label `-1`
for every requested result, and the loop's first lookup
`documents[-1]` on the empty corpus list raises `IndexError` (the
`none` result): the call fails instead of returning `[]`. -/
theorem retrieve_empty_corpus_index_error :
    retrieve_documents [] [] [[0]] 1 = none
      ∧ retrieve_documents [] [] [[0]] 1 ≠ some [] := by
  decide

/-- C10: when `retrieve_documents` is given a batch of query vectors,
only the first row's results are returned; the results of every other
query row in the batch are discarded.  The source searches the whole
batch but iterates over `indices[0]` only, so the result equals that
of the batch containing just the first row. -/
theorem retrieve_batch_first_row_only
    (matrix : List (List Int)) (documents : List Doc)
    (q : List Int) (qs : List (List Int)) (top_k : Nat) :
    retrieve_documents matrix documents (q :: qs) top_k
      = retrieve_documents matrix documents [q] top_k := by
  simp [retrieve_documents]

/-- C8: when ingestion finds zero documents, `build_index` fails with
the configuration error (`RuntimeError` in the source, the spec's
ConfigurationError) and aborts before writing any of the three
artifacts: the error result carries no artifact writes. -/
theorem build_index_empty_error
    (files : List RawFile) (rowEmbed : List Char → List Int)
    (h : ingest_raw_documents files = []) :
    build_index files rowEmbed = Except.error BuildError.noDocumentsFound := by
  simp [build_index, h]

/-- Witness for `build_index_empty_error`: an empty source directory
yields zero documents and the aborting error. -/
theorem build_index_empty_error_witness :
    build_index [] (fun _ => [0]) = Except.error BuildError.noDocumentsFound :=
  build_index_empty_error [] (fun _ => [0]) (by decide)

/-- C9: row-order invariant of the index build.  For a non-empty
corpus, `build_index` writes an embedding matrix with exactly one row
per corpus entry, row `i` being the embedding of corpus entry `i`'s
text, and persists the corpus metadata in the same order as the
matrix rows (the docs artifact is the ingested corpus itself, and the
FAISS index holds exactly the matrix rows). -/
theorem build_index_row_order
    (files : List RawFile) (rowEmbed : List Char → List Int)
    (h : ingest_raw_documents files ≠ []) :
    ∃ m : List (List Int),
      build_index files rowEmbed
        = Except.ok [ArtifactWrite.embeddingsFile m,
            ArtifactWrite.docsFile (ingest_raw_documents files),
            ArtifactWrite.indexFile m]
      ∧ m.length = (ingest_raw_documents files).length
      ∧ ∀ i : Nat, m[i]?
          = ((ingest_raw_documents files)[i]?).map (fun d => rowEmbed d.text) := by
  refine ⟨(ingest_raw_documents files).map (fun d => rowEmbed d.text), ?_, ?_, ?_⟩
  · simp [build_index, List.isEmpty_iff, h]
  · simp
  · intro i
    simp [List.getElem?_map]

/-- Witness for `build_index_row_order` at a concrete one-file
corpus. -/
theorem build_index_row_order_witness :
    ∃ m : List (List Int),
      build_index exFiles exEmbed
        = Except.ok [ArtifactWrite.embeddingsFile m,
            ArtifactWrite.docsFile (ingest_raw_documents exFiles),
            ArtifactWrite.indexFile m]
      ∧ m.length = (ingest_raw_documents exFiles).length
      ∧ ∀ i : Nat, m[i]?
          = ((ingest_raw_documents exFiles)[i]?).map (fun d => exEmbed d.text) :=
  build_index_row_order exFiles exEmbed
    (by simp [exFiles, exWit, ingest_raw_documents, endsWithMd, CHUNK_SIZE,
      clean_markdown_text, subAnchor, subHeaderlink, collapseNewlines, cnAux,
      collapseSpaces, findClose, hlWord, split_into_chunks, splitSections,
      matchHeader, consHead, sectionCandidates, windows, pySplit, pySplitAux,
      joinWords, pyStrip, lstrip, rstrip, isPyWS, isHSpace, List.dropWhile])

/-- C3 (counterexample): concatenating the chunks the chunker
actually emits from a section does not always reconstruct the
section's word sequence: with `max_words = 11`, the 12-word section
`exC3` (its own single section under the header split) emits only its
first 11-word chunk — the trailing 1-character window is discarded by
the 50-character filter, dropping the word `q`. -/
theorem chunk_concat_drops_words_cex :
    splitSections exC3 = [exC3]
      ∧ ((split_into_chunks exC3 11).map pySplit).flatten ≠ pySplit exC3 := by
  constructor
  · simp [exC3, splitSections, matchHeader, consHead]
  · simp [exC3, split_into_chunks, splitSections, matchHeader, consHead,
      sectionCandidates, windows, pySplit, pySplitAux, joinWords, pyStrip,
      lstrip, rstrip, isPyWS, List.dropWhile]

/-- C3 (amended): for every section produced by the header split,
concatenating all candidate chunks the chunker forms from that
section BEFORE the minimum-length filter (ignoring the secondary
fixed-size split boundaries) reconstructs the section's word sequence
in original order, with no words dropped or duplicated; the
50-character discard step may then remove the words of short
windows. -/
theorem candidate_chunks_preserve_words (t : List Char) (k : Nat)
    (s : List Char) (hs : s ∈ splitSections t) :
    ((sectionCandidates s k).map pySplit).flatten = pySplit s := by
  clear hs
  have hmap : (sectionCandidates s k).map pySplit = windows k (pySplit s) := by
    simp only [sectionCandidates, List.map_map]
    have hcongr : ∀ w ∈ windows k (pySplit s), (pySplit ∘ joinWords) w = id w := by
      intro w hw
      have hsub := windows_mem_subset hw
      simp only [Function.comp_apply, id]
      refine pySplit_joinWords w ?_ ?_
      · exact fun u hu => (pySplit_words s u (hsub u hu)).1
      · exact fun u hu => (pySplit_words s u (hsub u hu)).2
    rw [List.map_congr_left hcongr, List.map_id]
  rw [hmap, windows_flatten]

/-- Witness for `candidate_chunks_preserve_words` at a concrete text
(which is its own single section). -/
theorem candidate_chunks_preserve_words_witness :
    ((sectionCandidates exWit 500).map pySplit).flatten = pySplit exWit :=
  candidate_chunks_preserve_words exWit 500 exWit
    (by simp [exWit, splitSections, matchHeader, consHead])

/-- C6: every chunk produced by the chunker contains at most
`max_words` words: for every input text and every `chunk_size ≥ 1`,
each string returned by `split_into_chunks` splits into at most
`chunk_size` words. -/
theorem chunk_word_bound (t : List Char) (k : Nat) (c : List Char)
    (hk : 1 ≤ k) (hc : c ∈ split_into_chunks t k) :
    (pySplit c).length ≤ k := by
  obtain ⟨s, hs, w, hw, rfl, hlen⟩ := chunk_mem_structure hc
  have hsub := windows_mem_subset hw
  rw [pySplit_joinWords w
    (fun u hu => (pySplit_words s u (hsub u hu)).1)
    (fun u hu => (pySplit_words s u (hsub u hu)).2)]
  exact windows_mem_length hk hw

/-- Witness for `chunk_word_bound` at a concrete text that yields
itself as its one chunk. -/
theorem chunk_word_bound_witness : (pySplit exWit).length ≤ 500 :=
  chunk_word_bound exWit 500 exWit (by decide)
    (by simp [exWit, split_into_chunks, splitSections, matchHeader, consHead,
      sectionCandidates, windows, pySplit, pySplitAux, joinWords, pyStrip,
      lstrip, rstrip, isPyWS, List.dropWhile])

/-- C7: every chunk the chunker emits has trimmed length strictly
greater than 50 characters (equivalently, every candidate chunk whose
trimmed length is at most 50 characters is discarded and never
appears in the output); hence every chunk in the ingested corpus
satisfies the minimum-length invariant. -/
theorem chunk_min_length :
    (∀ (t : List Char) (k : Nat) (c : List Char),
      c ∈ split_into_chunks t k → 50 < (pyStrip c).length)
    ∧ (∀ (files : List RawFile) (d : Doc),
      d ∈ ingest_raw_documents files → 50 < (pyStrip d.text).length) := by
  constructor
  · intro t k c hc
    obtain ⟨_, _, _, _, _, hlen⟩ := chunk_mem_structure hc
    exact hlen
  · intro files d hd
    simp only [ingest_raw_documents, List.mem_flatten, List.mem_map] at hd
    obtain ⟨dl, ⟨f, hf, rfl⟩, hdl⟩ := hd
    by_cases hmd : endsWithMd f.name
    · simp only [hmd, if_true, List.mem_map] at hdl
      obtain ⟨c, hc, rfl⟩ := hdl
      obtain ⟨_, _, _, _, _, hlen⟩ := chunk_mem_structure hc
      exact hlen
    · simp [hmd] at hdl

/-- Witness for `chunk_min_length`, on a concrete chunk and a
concrete ingested corpus entry. -/
theorem chunk_min_length_witness :
    50 < (pyStrip exWit).length
      ∧ 50 < (pyStrip (({ text := exWit, source := ['a', '.', 'm', 'd'] } : Doc)).text).length :=
  ⟨chunk_min_length.1 exWit 500 exWit
      (by simp [exWit, split_into_chunks, splitSections, matchHeader, consHead,
        sectionCandidates, windows, pySplit, pySplitAux, joinWords, pyStrip,
        lstrip, rstrip, isPyWS, List.dropWhile]),
    chunk_min_length.2 exFiles _
      (by simp [exFiles, exWit, ingest_raw_documents, endsWithMd, CHUNK_SIZE,
        clean_markdown_text, subAnchor, subHeaderlink, collapseNewlines, cnAux,
        collapseSpaces, findClose, hlWord, split_into_chunks, splitSections,
        matchHeader, consHead, sectionCandidates, windows, pySplit, pySplitAux,
        joinWords, pyStrip, lstrip, rstrip, isPyWS, isHSpace, List.dropWhile])⟩

/-- C5 (counterexample): a `##` header on the very first line of the
text is NOT a section boundary: the delimiter regex `\n##+\s`
requires a preceding newline, so `exC5` (which begins with a header
line) stays one single section instead of being split. -/
theorem first_line_header_not_boundary_cex :
    splitSections exC5 = [exC5] ∧ (splitSections exC5).length = 1 := by
  constructor
  · simp [exC5, splitSections, matchHeader, matchTail, consHead, isPyWS]
  · simp [exC5, splitSections, matchHeader, matchTail, consHead, isPyWS]

/-- C5 (amended): the chunker splits the input at every interior
section boundary — a newline immediately followed by a run of two or
more `#` and one whitespace character — with the text before the
boundary forming its own section; a header at the very start of the
text (not preceded by a newline) is not a boundary.  Stated for the
leftmost boundary: `a` is any prefix inside which no delimiter match
starts (matches straddling the junction count), `m ≥ 2` is the run
length and `w` any whitespace character; splitting then recurses on
the remainder `b`, so every further occurrence is covered. -/
theorem splitSections_boundary (a b : List Char) (m : Nat) (w : Char)
    (hm : 2 ≤ m) (hw : isPyWS w = true)
    (ha : noBoundaryBefore ('\n' :: (List.replicate m '#' ++ w :: b)) a = true) :
    splitSections (a ++ '\n' :: (List.replicate m '#' ++ w :: b))
      = a :: splitSections b := by
  induction a with
  | nil =>
    have hd := matchHeader_delim hm hw b
    rw [List.nil_append, splitSections.eq_def]
    split
    · next x heq => simp at heq
    · next x c2 rest2 heq =>
      injection heq with hc2 hrest2
      subst hc2
      subst hrest2
      rw [if_pos rfl]
      split
      · next rem heq2 =>
        rw [hd] at heq2
        injection heq2 with h1
        rw [← h1]
      · next heq2 =>
        rw [hd] at heq2
        simp at heq2
  | cons c a2 ih =>
    simp only [noBoundaryBefore, Bool.and_eq_true, Bool.not_eq_true',
      Bool.and_eq_false_iff] at ha
    obtain ⟨h1, h2⟩ := ha
    by_cases hc : c = '\n'
    · subst hc
      have hnone : matchHeader (a2 ++ '\n' :: (List.replicate m '#' ++ w :: b))
          = none := by
        rcases h1 with h1 | h1
        · simp at h1
        · cases hM : matchHeader (a2 ++ '\n' :: (List.replicate m '#' ++ w :: b)) with
          | none => rfl
          | some r =>
            rw [hM] at h1
            simp at h1
      rw [List.cons_append, splitSections.eq_def]
      split
      · next x heq => simp at heq
      · next x c2 rest2 heq =>
        injection heq with hc2 hrest2
        subst hc2
        subst hrest2
        rw [if_pos rfl]
        split
        · next rem heq2 =>
          rw [hnone] at heq2
          simp at heq2
        · next heq2 =>
          rw [ih h2]
          simp [consHead]
    · rw [List.cons_append, splitSections.eq_def]
      split
      · next x heq => simp at heq
      · next x c2 rest2 heq =>
        injection heq with hc2 hrest2
        subst hc2
        subst hrest2
        rw [if_neg hc]
        rw [ih h2]
        simp [consHead]

/-- Witness for `splitSections_boundary`: an interior `## ` header
line splits the text `a\n#b\n## c` into the part before it (which
itself contains a non-delimiter newline-`#` pair) and the part after
it. -/
theorem splitSections_boundary_witness :
    noBoundaryBefore ('\n' :: (List.replicate 2 '#' ++ ' ' :: exC5b)) exC5a = true
      ∧ splitSections (exC5a ++ '\n' :: (List.replicate 2 '#' ++ ' ' :: exC5b))
        = exC5a :: splitSections exC5b :=
  ⟨by decide, splitSections_boundary exC5a exC5b 2 ' ' (by decide) (by decide)
    (by decide)⟩

/-- C2 (counterexample): `clean_markdown_text` is not idempotent.  On
`exC2 = "headerheaderlinklink"`, the single pass removes the inner
`headerlink` occurrence and leaves the text `headerlink`, which a
second pass removes entirely. -/
theorem clean_not_idempotent_cex :
    clean_markdown_text (clean_markdown_text exC2) ≠ clean_markdown_text exC2 := by
  simp only [exC2, clean_markdown_text, pyStrip, lstrip, rstrip, String.toList]
  simp [subAnchor, subHeaderlink, collapseNewlines, cnAux, collapseSpaces,
    findClose, hlWord, isPyWS, isHSpace, List.dropWhile]

/-- C2 (amended): the cleaner is idempotent on every input whose
once-cleaned form is free of residual artifacts, i.e. whenever the
anchor-removal and `headerlink`-removal passes leave `clean t`
unchanged, then `clean (clean t) = clean t`.  (The whitespace
normalizations and the final strip are always idempotent on cleaned
text; only artifact removal can uncover new artifacts, as in the
counterexample.) -/
theorem clean_idempotent_of_artifact_free (t : List Char)
    (h1 : subAnchor (clean_markdown_text t) = clean_markdown_text t)
    (h2 : subHeaderlink (clean_markdown_text t) = clean_markdown_text t) :
    clean_markdown_text (clean_markdown_text t) = clean_markdown_text t := by
  conv_lhs => rw [clean_markdown_text, h1, h2]
  rw [collapseNewlines_id (clean_noTriple t),
    cs_id (clean_noTab t) (clean_noPair t), clean_strip_fix]

/-- Witness for `clean_idempotent_of_artifact_free` at a concrete
artifact-free input. -/
theorem clean_idempotent_witness :
    clean_markdown_text (clean_markdown_text (("alpha beta").toList))
      = clean_markdown_text (("alpha beta").toList) :=
  clean_idempotent_of_artifact_free (("alpha beta").toList)
    (by simp [clean_markdown_text, subAnchor, subHeaderlink, collapseNewlines,
      cnAux, collapseSpaces, findClose, hlWord, isPyWS, isHSpace, pyStrip,
      lstrip, rstrip, List.dropWhile])
    (by simp [clean_markdown_text, subAnchor, subHeaderlink, collapseNewlines,
      cnAux, collapseSpaces, findClose, hlWord, isPyWS, isHSpace, pyStrip,
      lstrip, rstrip, List.dropWhile])
